import Mathlib

/-!
# Verification of the `scs` chat server core

A shallow embedding, in Lean 4, of the parts of the `scs` server (an
Attorney Online / SpriteChat chat server written in Go) that the
specification's claims are about, together with proofs settling those
claims.

Embedding conventions:

* Go strings are modelled as `List Char` (or Lean `String` where the
  operations are purely structural).  All of the byte patterns the code
  manipulates are ASCII, for which per-byte and per-scalar processing
  coincide.
* Go `int` is modelled as `Int` (no arithmetic here ever approaches the
  64-bit range), and Go slices as `List`.
* A Go function that can panic at run time (index out of range,
  nil dereference) is modelled with an `Option` result, `none` meaning
  the panic.
* Loops are modelled either structurally or with an explicit fuel
  argument that is provably larger than the number of iterations the Go
  loop can perform; mutation is modelled by explicit state passing.
* Mutexes, logging and network writes are concurrency/IO and have no
  effect on the values computed; they are dropped.
-/

namespace Scs

/-! ## `pkg/packets/aopackets.go`

`encode` and `decode` use Go's `strings.NewReplacer`, which scans the
subject left to right and, at each position, applies the first pattern
(in argument order) that matches, without overlapping matches; an
unmatched byte is copied.  For `encode` every pattern is a single byte,
so it is a per-character substitution.  For `decode` the four patterns
`<percent>`, `<and>`, `<num>`, `<dollar>` pairwise differ in their
second character, so at most one can match at a given position.
-/

/-- The escape sequence for `%`: `<percent>`. -/
def percentTok : List Char := ['<', 'p', 'e', 'r', 'c', 'e', 'n', 't', '>']

/-- The escape sequence for `&`: `<and>`. -/
def andTok : List Char := ['<', 'a', 'n', 'd', '>']

/-- The escape sequence for `#`: `<num>`. -/
def numTok : List Char := ['<', 'n', 'u', 'm', '>']

/-- The escape sequence for `$`: `<dollar>`. -/
def dollarTok : List Char := ['<', 'd', 'o', 'l', 'l', 'a', 'r', '>']

/-- The four escape sequences, in the order `encode`/`decode` list them. -/
def aoTokens : List (List Char) := [percentTok, andTok, numTok, dollarTok]

/-- The replacement `encode` applies to one character: a reserved byte
becomes its escape sequence, anything else is copied. -/
def encodeChar (c : Char) : List Char :=
  if c = '%' then percentTok
  else if c = '&' then andTok
  else if c = '#' then numTok
  else if c = '$' then dollarTok
  else [c]

/-- Source: `encode` from `aopackets.go`: replace each reserved byte by its
escape sequence (`strings.NewReplacer` with single-byte patterns). -/
def encode : List Char → List Char
  | [] => []
  | c :: rest => encodeChar c ++ encode rest

/-- Source: `decode` from `aopackets.go`, with fuel making the left-to-right
replacement scan structural.  At each position the first escape sequence
that matches is replaced by its byte and the scan resumes after it;
otherwise one character is copied.  The fuel only needs to dominate the
number of characters scanned; `decode` supplies the subject's length. -/
def decodeAux : Nat → List Char → List Char
  | 0, l => l
  | _ + 1, [] => []
  | fuel + 1, c :: rest =>
    if percentTok.isPrefixOf (c :: rest) then '%' :: decodeAux fuel (rest.drop 8)
    else if andTok.isPrefixOf (c :: rest) then '&' :: decodeAux fuel (rest.drop 4)
    else if numTok.isPrefixOf (c :: rest) then '#' :: decodeAux fuel (rest.drop 4)
    else if dollarTok.isPrefixOf (c :: rest) then '$' :: decodeAux fuel (rest.drop 7)
    else c :: decodeAux fuel rest

/-- Source: `decode` from `aopackets.go`: invert the escape sequences. -/
def decode (l : List Char) : List Char := decodeAux l.length l

/-- A character that `encode` copies unchanged: not one of the four
reserved bytes.  The characters inside the escape sequences' tails are
such characters, and moreover are not `<`. -/
def plainChar (c : Char) : Prop :=
  c ≠ '%' ∧ c ≠ '&' ∧ c ≠ '#' ∧ c ≠ '$' ∧ c ≠ '<'

/-! ## `MakeAOPacket` (`pkg/packets/aopackets.go`) -/

/-- An AO packet: a header and the `#`-separated content fields. -/
structure PacketAO where
  header : List Char
  contents : List (List Char)
deriving DecidableEq

/-- Go's `strings.Split(s, sep)` for a one-byte separator: the list of
(possibly empty) runs between occurrences of the separator.  It always
returns at least one token. -/
def splitGo (sep : Char) : List Char → List (List Char)
  | [] => [[]]
  | c :: rest =>
    if c = sep then [] :: splitGo sep rest
    else
      match splitGo sep rest with
      | [] => [[c]] -- unreachable: `splitGo` never returns `[]`
      | t :: ts => (c :: t) :: ts

/-- Source: `MakeAOPacket` from `aopackets.go`: split the raw bytes on `#`;
with fewer than two tokens return the zero packet, otherwise the first
token is the header and the last token is dropped from the contents. -/
def makeAOPacket (raw : List Char) : PacketAO :=
  let parts := splitGo '#' raw
  if parts.length < 2 then ⟨[], []⟩
  else ⟨parts.headI, parts.tail.dropLast⟩

/-! ## Mute-state constants (`internal/client/client.go`)

The Go block is

```
const (
    Unmuted MuteState = 0

    MutedIC MuteState = 1 << iota
    MutedOOC
    MutedMusic
    MutedJudge
)
```

`iota` counts const specs from the top of the block, and `Unmuted` is
the first one, so `iota = 1` at `MutedIC`.  `MuteState` is a Go `int`;
all its values here are small and non-negative, so `Nat` (whose bitwise
operations agree with Go's on non-negative values) models it. -/

/-- Source: `Unmuted MuteState = 0`. -/
def Unmuted : Nat := 0

/-- Source: `MutedIC MuteState = 1 << iota` with `iota = 1` (second const spec
of the block). -/
def MutedIC : Nat := 1 <<< 1

/-- Source: `MutedOOC` continues the pattern with `iota = 2`. -/
def MutedOOC : Nat := 1 <<< 2

/-- Source: `MutedMusic` continues the pattern with `iota = 3`. -/
def MutedMusic : Nat := 1 <<< 3

/-- Source: `MutedJudge` continues the pattern with `iota = 4`. -/
def MutedJudge : Nat := 1 <<< 4

/-- Modelled from the spec: "MutedAll = OR of all" four mute bits.
`client.MutedAll` is referenced by the command handlers, but its
declaration is not among the provided sources. -/
def MutedAll : Nat := MutedIC ||| MutedOOC ||| MutedMusic ||| MutedJudge

/-! ## `Database.AddBan` (`internal/db/db.go`)

The embedding computes the row the Go code would insert (SQL `NULL`
modelled as `none`), or the error it would return.  The `bans` table's
`CHECK (ipid IS NOT NULL OR hdid IS NOT NULL)` constraint is satisfied
by every row the function builds, since an empty string is not `NULL`,
so the database engine never rejects these inserts. -/

/-- A row of the `bans` table; `none` models SQL `NULL`.  `endTime`
renders the Go field `end` (a Lean keyword). -/
structure BanRow where
  ipid : Option String
  hdid : Option String
  reason : String
  moderator : String
  start : Int
  endTime : Int
deriving DecidableEq

/-- Outcome of `AddBan`: the row inserted, or the error returned. -/
inductive BanResult where
  | inserted (row : BanRow)
  | rejected (msg : String)
deriving DecidableEq

/-- Source: `Database.AddBan(ipid, hdid, reason, moderator, dur)`.  `now` is
the value of `time.Now()` (Unix seconds) and `dur` the duration in
seconds.  Mirrors the Go control flow: a both-non-empty fast path, then
`switch { case ipid == "": ...; case hdid == "": ...; default: error }`,
whose first matching case wins. -/
def addBan (now : Int) (ipid hdid reason moderator : String) (dur : Int) : BanResult :=
  let start := now
  let endT := now + dur
  if ipid ≠ "" ∧ hdid ≠ "" then
    .inserted ⟨some ipid, some hdid, reason, moderator, start, endT⟩
  else if ipid = "" then
    -- `case ipid == ""`: an HDID ban with `hdid` bound (even if empty)
    .inserted ⟨none, some hdid, reason, moderator, start, endT⟩
  else if hdid = "" then
    -- `case hdid == ""`: an IPID ban
    .inserted ⟨some ipid, none, reason, moderator, start, endT⟩
  else
    -- `default`
    .rejected "db: IPID and HDID cannot both be empty."

/-! ## `Database.AddAuth` / `Database.CheckAuth` (`internal/db/db.go`)

The `auth` table is a list of rows with `username` as primary key; the
bcrypt pair (`GenerateFromPassword`, `CompareHashAndPassword`) is kept
abstract as a `hash` function and a `compare` predicate, with the
bcrypt round-trip facts taken as hypotheses where needed. -/

/-- A row of the `auth` table; `password` stores the bcrypt hash. -/
structure AuthRow where
  username : String
  password : String
  role : String
deriving DecidableEq

/-- Source: `SELECT ... FROM auth WHERE username = ?`: the first matching row. -/
def lookupAuth (table : List AuthRow) (u : String) : Option AuthRow :=
  table.find? (fun r => r.username == u)

/-- Source: `Database.AddAuth(username, password, role)`: hash the password and
insert; the primary-key constraint rejects a duplicate username. -/
def addAuth (hash : String → String) (table : List AuthRow) (u p r : String) :
    Except String (List AuthRow) :=
  if (lookupAuth table u).isSome then
    .error "db: Couldn't add user (UNIQUE constraint failed: auth.username)"
  else
    .ok (table ++ [⟨u, hash p, r⟩])

/-- What `row.Scan` can produce in `CheckAuth`: a row, `sql.ErrNoRows`,
or some other storage error. -/
inductive ScanOutcome where
  | row (password role : String)
  | noRows
  | failure (e : String)
deriving DecidableEq

/-- The query underlying `CheckAuth` on an intact store: a matching row
or `noRows`.  (A `failure` outcome models the storage engine failing,
which the store's own state never causes.) -/
def queryAuth (table : List AuthRow) (u : String) : ScanOutcome :=
  match lookupAuth table u with
  | some r => .row r.password r.role
  | none => .noRows

/-- The body of `Database.CheckAuth` after the query: `sql.ErrNoRows`
means "user doesn't exist" and yields `(false, "", nil)`; any other
scan error is returned as the error value; otherwise bcrypt comparison
decides.  Result: `((ok, role), err)`. -/
def checkAuthScan (compare : String → String → Bool) (outcome : ScanOutcome)
    (password : String) : (Bool × String) × Option String :=
  match outcome with
  | .failure e => ((false, ""), some e)
  | .noRows => ((false, ""), none)
  | .row hash role =>
    if compare hash password then ((true, role), none) else ((false, ""), none)

/-- Source: `Database.CheckAuth(username, password)` against an intact store. -/
def checkAuth (compare : String → String → Bool) (table : List AuthRow)
    (u p : String) : (Bool × String) × Option String :=
  checkAuthScan compare (queryAuth table u) p

/-! ## Rooms (`internal/room/room.go`) -/

/-- Source: `SpectatorCID = -1`. -/
def SpectatorCID : Int := -1

/-- Source: `invalidUID = 0`. -/
def invalidUID : Int := 0

/-- The `LockState` iota block: `LockFree = 0`, `LockSpec = 1`,
`LockLocked = 2` (Go `int`, non-negative, modelled as `Nat`). -/
def lockFree : Nat := 0

/-- Source: `LockSpec`: second entry of the `LockState` block. -/
def lockSpec : Nat := 1

/-- Source: `LockLocked`: third entry of the `LockState` block. -/
def lockLocked : Nat := 2

/-- A character slot: `char { name string; taken bool }`. -/
structure CharSlot where
  name : String
  taken : Bool
deriving DecidableEq

/-- A user in a room: `user { charID, userID int }`. -/
structure RoomUser where
  charID : Int
  userID : Int
deriving DecidableEq

/-- The room fields the claims are about.  `invited` and `managers` are
Go map-based sets of UIDs. -/
structure RoomState where
  name : String
  desc : String
  lock : Nat
  invited : List Int
  chars : List CharSlot
  users : List RoomUser
  managers : List Int
deriving DecidableEq

/-- Source: `Room.GetNameByCID`: `"Spectator"` for the spectator CID, `""` when
the bounds check `cid < 0 || cid > len(r.chars)` fires, otherwise the
indexing `r.chars[cid].name`.  The bounds check does not exclude
`cid = len(r.chars)`, where the indexing panics (`none`). -/
def getNameByCID (chars : List CharSlot) (cid : Int) : Option String :=
  if cid = SpectatorCID then some "Spectator"
  else if cid < 0 ∨ cid > chars.length then some ""
  else
    match chars[cid.toNat]? with
    | some slot => some slot.name
    | none => none -- index out of range: a Go run-time panic

/-- Source: `Room.GetCIDByName`: `"Spectator"` is reserved; otherwise a linear
search, `(SpectatorCID, false)` when the name is absent. -/
def getCIDByName (chars : List CharSlot) (name : String) : Int × Bool :=
  if name = "Spectator" then (SpectatorCID, true)
  else
    match chars.findIdx? (fun c => name == c.name) with
    | some i => ((i : Int), true)
    | none => (SpectatorCID, false)

/-- Source: `Room.IsInvited`. -/
def isInvited (r : RoomState) (uid : Int) : Bool := r.invited.contains uid

/-- Source: `Room.IsManager` (set membership). -/
def isManager (r : RoomState) (uid : Int) : Bool := r.managers.contains uid

/-- Source: `Room.RemoveManager` (set deletion). -/
def removeManager (r : RoomState) (uid : Int) : RoomState :=
  { r with managers := r.managers.filter (fun u => u ≠ uid) }

/-- Source: `Room.Enter(cid, uid)`: a spectator always enters; otherwise bounds
check, fail on a taken slot, else mark the slot taken and append the
user.  `none` models Go's `false` return (the room unchanged). -/
def roomEnter (r : RoomState) (cid uid : Int) : Option RoomState :=
  if cid = SpectatorCID then
    some { r with users := r.users ++ [⟨cid, uid⟩] }
  else if cid ≥ r.chars.length ∨ cid < 0 then none
  else
    match r.chars[cid.toNat]? with
    | some slot =>
      if slot.taken then none
      else some { r with chars := r.chars.set cid.toNat { slot with taken := true },
                         users := r.users ++ [⟨cid, uid⟩] }
    | none => none -- unreachable given the bounds check

/-- Source: `Room.getUser`: first user with the UID, else the invalid user. -/
def getUser (users : List RoomUser) (uid : Int) : RoomUser :=
  match users.find? (fun u => u.userID == uid) with
  | some u => u
  | none => ⟨SpectatorCID, invalidUID⟩

/-- Source: `Room.removeUser`: overwrite the user's position with the last
element and shrink (order does not matter).  The Go loop does this for
the position of the matching UID; UIDs are unique in a room. -/
def removeUser (users : List RoomUser) (uid : Int) : List RoomUser :=
  match users.findIdx? (fun u => u.userID == uid) with
  | none => users
  | some i => (users.set i (users.getLastD ⟨SpectatorCID, invalidUID⟩)).dropLast

/-- Source: `Room.Leave(uid)`: no-op for an unknown UID; otherwise release the
user's slot (unless spectator) and remove the user.  The slot indexing
`r.chars[u.charID]` is in bounds in every state the server builds
("shouldn't need an out-of-bounds check"). -/
def roomLeave (r : RoomState) (uid : Int) : RoomState :=
  let u := getUser r.users uid
  if u.userID = invalidUID then r
  else
    let r1 :=
      if u.charID ≠ SpectatorCID then
        { r with chars := (r.chars.modify (fun slot => { slot with taken := false }) u.charID.toNat) }
      else r
    { r1 with users := removeUser r1.users uid }

/-! ## `SCServer.moveClient` (`internal/server/commands.go`)

The embedding follows the fuller variant of `moveClient` (the one whose
`dst` may be `nil` and which strips manager privileges).  The returned
strings are the server OOC messages sent to the moving client, in
order; room broadcasts and log lines are I/O and are not modelled.
A `none` result models a Go run-time panic (nil current room, or a
panic inside `GetNameByCID`). -/

/-- The moving client's fields.  `room` is an index into the server's
room list (`none` = Go `nil`); `hasMgrRole` tracks the manager role
attached to the client's permission set. -/
structure ClientState where
  uid : Int
  cid : Int
  room : Option Nat
  hasMgrRole : Bool
deriving DecidableEq

/-- The server state `moveClient` reads and writes. -/
structure ServerState where
  rooms : List RoomState
  client : ClientState
deriving DecidableEq

/-- Source: `SCServer.moveClient(c, dst)`. -/
def moveClient (st : ServerState) (dst : Option Nat) : Option (ServerState × List String) :=
  if st.client.room = dst then some (st, ["You are already in this room!"])
  else
    match st.client.room with
    | none => none -- Go: `currRoom` is nil and the accesses below panic
    | some currIdx =>
      match st.rooms[currIdx]? with
      | none => none
      | some curr =>
        -- remove manager privileges
        let mgr := isManager curr st.client.uid
        let curr1 := if mgr then removeManager curr st.client.uid else curr
        let rooms1 := if mgr then st.rooms.set currIdx curr1 else st.rooms
        let cl1 := if mgr then { st.client with hasMgrRole := false } else st.client
        match dst with
        | none =>
          -- only used when disconnecting
          some (⟨rooms1.set currIdx (roomLeave curr1 st.client.uid),
                 { cl1 with room := none }⟩, [])
        | some dstIdx =>
          match rooms1[dstIdx]? with
          | none => none
          | some dstRoom =>
            -- check invite
            if dstRoom.lock &&& lockLocked ≠ 0 ∧ isInvited dstRoom st.client.uid = false then
              some (⟨rooms1, cl1⟩, ["You are not invited to this room!"])
            else
              let movedMsg := "Moved to [" ++ toString dstIdx ++ "] " ++ dstRoom.name
                ++ ". Description: " ++ dstRoom.desc
              -- check character
              match getNameByCID curr1.chars cl1.cid with
              | none => none -- a panic inside GetNameByCID propagates
              | some charName =>
                let found := getCIDByName dstRoom.chars charName
                let cid1 := if found.2 then found.1 else SpectatorCID
                let msgs1 : List String :=
                  if found.2 then []
                  else ["Your character is not in this room's list. Changing to Spectator."]
                let entered :=
                  match roomEnter dstRoom cid1 st.client.uid with
                  | some d => (d, cid1, ([] : List String))
                  | none =>
                    -- fall back to spectator (this second Enter always succeeds)
                    ((roomEnter dstRoom SpectatorCID st.client.uid).getD dstRoom,
                     SpectatorCID,
                     ["Your character in this room is taken. Changing to Spectator."])
                let rooms2 := rooms1.set dstIdx entered.1
                let rooms3 := rooms2.set currIdx (roomLeave curr1 st.client.uid)
                some (⟨rooms3, { cl1 with room := some dstIdx, cid := entered.2.1 }⟩,
                      movedMsg :: (msgs1 ++ entered.2.2))

/-! ## The IC "immediate" block (`internal/server/aoprotocol.go`)

The `MS` handler's treatment of response field 22 (non-interrupting
preanimation) and its interaction with field 7 (emote mod), after field
7 has passed the earlier emote-mod validation. -/

/-- Go's `strconv.ParseBool`. -/
def parseBool (s : String) : Option Bool :=
  if s = "1" ∨ s = "t" ∨ s = "T" ∨ s = "TRUE" ∨ s = "true" ∨ s = "True" then some true
  else if s = "0" ∨ s = "f" ∨ s = "F" ∨ s = "FALSE" ∨ s = "false" ∨ s = "False" then some false
  else none

/-- The emote-mod remap applied when a message becomes immediate:
`"1"→"0"`, `"2"→"0"`, `"6"→"5"`. -/
def remapEmoteMod (r7 : String) : String :=
  if r7 = "1" ∨ r7 = "2" then "0" else if r7 = "6" then "5" else r7

/-- The immediate block of `handleIC`, as a function of the room's
force-immediate flag and fields `resp[7]`, `resp[22]`; the result is
the updated `(resp[7], resp[22])`, or `none` when the packet is
rejected ("Invalid immediate."). -/
def immediateStep (forceImmediate : Bool) (resp7 resp22 : String) :
    Option (String × String) :=
  if resp22 = "" then some (resp7, "0")
  else
    match parseBool resp22 with
    | none => none
    | some b =>
      if b || forceImmediate then some (remapEmoteMod resp7, "1")
      else some (resp7, resp22)

/-! ## The UID heap (`internal/uid/uidheap.go`, `pkg/minheap`)

`minheap.MinHeap` wraps an int slice with the methods of Go's
`container/heap`; the slice is modelled as a `List Int`.  `down`
and `up` are the standard library's sift loops, written with a fuel
argument that bounds the number of iterations; every caller passes
fuel at least `n - i` resp. `j + 1`, which dominates the iteration
count (the index at least increments going down, and strictly
decreases going up). -/

/-- Indexing `h[i]` on the heap slice (always in bounds when called). -/
def nth (l : List Int) (i : Nat) : Int := l.getD i 0

/-- Source: `h.Swap(i, j)`. -/
def swapL (l : List Int) (i j : Nat) : List Int :=
  (l.set i (nth l j)).set j (nth l i)

/-- Source: `container/heap`'s `down(h, i, n)` loop: sift the element at `i`
down within the first `n` positions, specialized to `Less(i, j) =
h[i] < h[j]`. -/
def downAux : Nat → List Int → Nat → Nat → List Int
  | 0, l, _, _ => l
  | fuel + 1, l, i, n =>
    let j1 := 2 * i + 1
    if j1 ≥ n then l
    else
      let j := if j1 + 1 < n ∧ nth l (j1 + 1) < nth l j1 then j1 + 1 else j1
      if ¬ nth l j < nth l i then l
      else downAux fuel (swapL l i j) j n

/-- Source: `down(h, i0, n)` with sufficient fuel. -/
def goDown (l : List Int) (i0 n : Nat) : List Int := downAux n l i0 n

/-- Source: `container/heap`'s `up(h, j)` loop.  In Go, `i := (j-1)/2` is `0`
at `j = 0` (truncated division), exactly as in `Nat`. -/
def upAux : Nat → List Int → Nat → List Int
  | 0, l, _ => l
  | fuel + 1, l, j =>
    let i := (j - 1) / 2
    if i = j ∨ ¬ nth l j < nth l i then l
    else upAux fuel (swapL l i j) i

/-- Source: `up(h, j)` with sufficient fuel. -/
def goUp (l : List Int) (j : Nat) : List Int := upAux (j + 1) l j

/-- The `heap.Init` loop `for i := n/2 - 1; i >= 0; i--`, processing
indices `k-1, ..., 0`. -/
def initAux : Nat → List Int → List Int
  | 0, l => l
  | k + 1, l => initAux k (goDown l k l.length)

/-- Source: `heap.Init(h)`. -/
def heapInit (l : List Int) : List Int := initAux (l.length / 2) l

/-- Source: `minheap.NewHeap(init)`: copy and `heap.Init`. -/
def newHeap (l0 : List Int) : List Int := heapInit l0

/-- Source: `heap.Push(h, x)`: append, then sift up from the last index. -/
def heapPush (l : List Int) (x : Int) : List Int := goUp (l ++ [x]) l.length

/-- Source: `heap.Pop(h)`: swap the root with the last element, sift down
within the shortened range, then remove and return the last element.
On an empty heap Go's `h.Swap(0, -1)` panics (`none`). -/
def heapPop (l : List Int) : Option (Int × List Int) :=
  match l with
  | [] => none
  | _ :: _ =>
    let n := l.length - 1
    let l2 := goDown (swapL l 0 n) 0 n
    some (nth l2 n, l2.dropLast)

/-- The slice `[1, 2, ..., max]` that `uid.CreateHeap` builds
(`init[i] = i + 1`). -/
def rangeUIDs (maxPlayers : Nat) : List Int :=
  (List.range maxPlayers).map (fun i => Int.ofNat i + 1)

/-- Source: `uid.CreateHeap(max)`: a heap over `[1, 2, ..., max]`. -/
def createHeap (maxPlayers : Nat) : List Int :=
  newHeap (rangeUIDs maxPlayers)

/-- Source: `UIDHeap.Take`: pop the minimum (the mutex is concurrency-only). -/
def uidTake (l : List Int) : Option (Int × List Int) := heapPop l

/-- Source: `UIDHeap.Free(id)`: push `id` back, unconditionally. -/
def uidFree (l : List Int) (id : Int) : List Int := heapPush l id

/-- The multiset of values stored in the heap slice. -/
def contents (l : List Int) : Multiset Int := (l : Multiset Int)

/-- The allocator state: the heap plus the multiset of currently taken
UIDs (the environment's bookkeeping, not a server structure). -/
structure AllocState where
  heap : List Int
  taken : Multiset Int

/-- One allocator operation: a `Take` (when it succeeds), or a `Free`
of a currently taken UID — the discipline the claim quantifies over. -/
inductive AllocStep : AllocState → AllocState → Prop
  | take (s : AllocState) (v : Int) (h' : List Int) :
      uidTake s.heap = some (v, h') → AllocStep s ⟨h', v ::ₘ s.taken⟩
  | free (s : AllocState) (id : Int) :
      id ∈ s.taken → AllocStep s ⟨uidFree s.heap id, s.taken.erase id⟩

/-- The allocator's initial state for `max` players. -/
def allocInit (maxPlayers : Nat) : AllocState := ⟨createHeap maxPlayers, 0⟩

/-- States reachable by `Take`/`Free` sequences from the initial
state. -/
def AllocReachable (maxPlayers : Nat) (s : AllocState) : Prop :=
  Relation.ReflTransGen AllocStep (allocInit maxPlayers) s

/-- The multiset `{1, ..., max}`. -/
def initContents (maxPlayers : Nat) : Multiset Int :=
  ((rangeUIDs maxPlayers : List Int) : Multiset Int)

/-- The binary min-heap ordering on the first `n` positions: every
non-root position is at least its parent. -/
def IsHeapN (l : List Int) (n : Nat) : Prop :=
  ∀ j, 0 < j → j < n → nth l ((j - 1) / 2) ≤ nth l j

/-- The heap ordering on the whole slice. -/
def IsHeap (l : List Int) : Prop := IsHeapN l l.length

/-- Precondition of the `down` loop at index `i`: the heap ordering
holds on the first `n` positions except on edges out of `i`, and (when
`i` is not the root) `i`'s parent already bounds `i`'s children. -/
def DownPre (l : List Int) (n i : Nat) : Prop :=
  (∀ j, 0 < j → j < n → (j - 1) / 2 ≠ i → nth l ((j - 1) / 2) ≤ nth l j) ∧
  (0 < i → ∀ j, j < n → (j - 1) / 2 = i → nth l ((i - 1) / 2) ≤ nth l j)

/-- Precondition of the `up` loop at index `j`: the heap ordering holds
except on the edge into `j`, and (when `j` is not the root) `j`'s
parent already bounds `j`'s children. -/
def UpPre (l : List Int) (n j : Nat) : Prop :=
  (∀ c, 0 < c → c < n → c ≠ j → nth l ((c - 1) / 2) ≤ nth l c) ∧
  (0 < j → ∀ c, 0 < c → c < n → (c - 1) / 2 = j → nth l ((j - 1) / 2) ≤ nth l c)

theorem encode_cons (c : Char) (rest : List Char) :
    encode (c :: rest) = encodeChar c ++ encode rest := rfl

theorem encodeChar_of_plain {c : Char} (h : plainChar c) : encodeChar c = [c] := by
  obtain ⟨h1, h2, h3, h4, _⟩ := h
  simp [encodeChar, h1, h2, h3, h4]

/-- A string of plain characters is a prefix of an encoded string only
if it is a prefix of the original: `encode` only ever introduces the
reserved-byte escapes, which begin with `<`. -/
theorem encode_keeps_plain_front :
    ∀ (t : List Char), (∀ x ∈ t, plainChar x) →
      ∀ (u : List Char), t <+: encode u → t <+: u := by
  intro t
  induction t with
  | nil => intro _ u _; exact List.nil_prefix
  | cons a t' ih =>
    intro hplain u hpre
    match u with
    | [] =>
      rw [show encode [] = [] from rfl, List.prefix_nil] at hpre
      exact absurd hpre (by simp)
    | d :: u' =>
      have ha : plainChar a := hplain a (by simp)
      by_cases hd : d = '%' ∨ d = '&' ∨ d = '#' ∨ d = '$'
      · exfalso
        have : a = '<' := by
          rcases hd with h | h | h | h <;> subst h <;>
            · rw [encode_cons] at hpre
              simp [encodeChar, percentTok, andTok, numTok, dollarTok,
                List.cons_prefix_cons] at hpre
              exact hpre.1
        exact ha.2.2.2.2 this
      · push_neg at hd
        have henc : encode (d :: u') = d :: encode u' := by
          rw [encode_cons]
          simp [encodeChar, hd.1, hd.2.1, hd.2.2.1, hd.2.2.2]
        rw [henc, List.cons_prefix_cons] at hpre
        have := ih (fun x hx => hplain x (by simp [hx])) u' hpre.2
        rw [ List.cons_prefix_cons]
        exact ⟨hpre.1, this⟩

theorem noTok_tail {c : Char} {rest : List Char}
    (h : ∀ t ∈ aoTokens, ¬ t <:+: c :: rest) : ∀ t ∈ aoTokens, ¬ t <:+: rest := by
  intro t ht hinf
  obtain ⟨s, u, rfl⟩ := hinf
  exact h t ht ⟨c :: s, u, by simp⟩

theorem decodeAux_percent (fuel : Nat) (e : List Char) :
    decodeAux (fuel + 1) (percentTok ++ e) = '%' :: decodeAux fuel e := by
  simp [decodeAux, percentTok, List.isPrefixOf]

theorem decodeAux_and (fuel : Nat) (e : List Char) :
    decodeAux (fuel + 1) (andTok ++ e) = '&' :: decodeAux fuel e := by
  simp [decodeAux, percentTok, andTok, List.isPrefixOf]

theorem decodeAux_num (fuel : Nat) (e : List Char) :
    decodeAux (fuel + 1) (numTok ++ e) = '#' :: decodeAux fuel e := by
  simp [decodeAux, percentTok, andTok, numTok, List.isPrefixOf]

theorem decodeAux_dollar (fuel : Nat) (e : List Char) :
    decodeAux (fuel + 1) (dollarTok ++ e) = '$' :: decodeAux fuel e := by
  simp [decodeAux, percentTok, andTok, numTok, dollarTok, List.isPrefixOf]

theorem decodeAux_plain (fuel : Nat) (c : Char) (l : List Char)
    (h : ∀ t ∈ aoTokens, ¬ t.isPrefixOf (c :: l)) :
    decodeAux (fuel + 1) (c :: l) = c :: decodeAux fuel l := by
  have h1 := h percentTok (by simp [aoTokens])
  have h2 := h andTok (by simp [aoTokens])
  have h3 := h numTok (by simp [aoTokens])
  have h4 := h dollarTok (by simp [aoTokens])
  simp only [Bool.not_eq_true] at h1 h2 h3 h4
  simp [decodeAux, h1, h2, h3, h4]

theorem decodeAux_encode :
    ∀ (s : List Char) (fuel : Nat), (encode s).length ≤ fuel →
      (∀ t ∈ aoTokens, ¬ t <:+: s) → decodeAux fuel (encode s) = s := by
  intro s
  induction s with
  | nil =>
    intro fuel _ _
    match fuel with
    | 0 => rfl
    | _ + 1 => rfl
  | cons c rest ih =>
    intro fuel hfuel hno
    have hno' := noTok_tail hno
    by_cases hc : c = '%' ∨ c = '&' ∨ c = '#' ∨ c = '$'
    · -- reserved byte: its escape sequence is consumed as a block
      rcases hc with h | h | h | h <;> subst h <;>
      · rw [encode_cons] at hfuel ⊢
        first
          | rw [show encodeChar '%' = percentTok by decide] at hfuel ⊢
          | rw [show encodeChar '&' = andTok by decide] at hfuel ⊢
          | rw [show encodeChar '#' = numTok by decide] at hfuel ⊢
          | rw [show encodeChar '$' = dollarTok by decide] at hfuel ⊢
        rw [List.length_append] at hfuel
        cases fuel with
        | zero =>
          exfalso
          revert hfuel
          simp [percentTok, andTok, numTok, dollarTok]
        | succ fuel =>
          first
            | rw [decodeAux_percent] | rw [decodeAux_and]
            | rw [decodeAux_num] | rw [decodeAux_dollar]
          have hlen : (encode rest).length ≤ fuel := by
            simp only [percentTok, andTok, numTok, dollarTok,
              List.length_cons, List.length_nil] at hfuel
            omega
          rw [ih fuel hlen hno']
    · -- plain byte (possibly '<'): copied verbatim
      push_neg at hc
      have henc : encode (c :: rest) = c :: encode rest := by
        rw [encode_cons]
        simp [encodeChar, hc.1, hc.2.1, hc.2.2.1, hc.2.2.2]
      rw [henc] at hfuel ⊢
      match fuel, hfuel with
      | fuel + 1, hfuel =>
        have hnp : ∀ t ∈ aoTokens, ¬ t.isPrefixOf (c :: encode rest) := by
          intro t ht hpre
          rw [ List.isPrefixOf_iff_prefix] at hpre
          -- every escape sequence begins with '<' and continues with
          -- plain characters
          have ht' : ∃ t', t = '<' :: t' ∧ (∀ x ∈ t', plainChar x) := by
            fin_cases ht <;>
              exact ⟨_, rfl, by intro x hx; fin_cases hx <;> simp [plainChar]⟩
          obtain ⟨t', rfl, hplain⟩ := ht'
          rw [ List.cons_prefix_cons] at hpre
          obtain ⟨hc', hpre⟩ := hpre
          subst hc'
          have hp : '<' :: t' <+: '<' :: rest := ( List.cons_prefix_cons).2 ⟨rfl, encode_keeps_plain_front t' hplain rest hpre⟩
          obtain ⟨u, hu⟩ := hp
          exact hno _ ht ⟨[], u, by simpa using hu⟩
        rw [decodeAux_plain fuel c (encode rest) hnp]
        rw [ih fuel (by simp at hfuel; omega) hno']

theorem decode_encode_of_noTok (s : List Char)
    (h : ∀ t ∈ aoTokens, ¬ t <:+: s) : decode (encode s) = s :=
  decodeAux_encode s (encode s).length le_rfl h

/-! ### Facts about `splitGo` -/

theorem splitGo_ne_nil (sep : Char) (l : List Char) : splitGo sep l ≠ [] := by
  match l with
  | [] => simp [splitGo]
  | c :: rest =>
    by_cases h : c = sep <;> simp only [splitGo, h, if_true, if_false, reduceIte]
    · simp
    · cases hs : splitGo sep rest <;> simp

theorem splitGo_no_sep (sep : Char) (l : List Char) (h : sep ∉ l) :
    splitGo sep l = [l] := by
  induction l with
  | nil => rfl
  | cons c rest ih =>
    have hc : ¬ c = sep := fun hc => h (by simp [hc])
    have hr : sep ∉ rest := fun hr => h (by simp [hr])
    simp only [splitGo, hc, if_false, reduceIte, ih hr]

theorem length_splitGo (sep : Char) (l : List Char) :
    (splitGo sep l).length = l.count sep + 1 := by
  induction l with
  | nil => rfl
  | cons c rest ih =>
    by_cases hc : c = sep
    · subst hc
      simp [splitGo, ih, List.count_cons]
    · simp only [splitGo, hc, if_false, reduceIte]
      cases hs : splitGo sep rest with
      | nil => exact absurd hs (splitGo_ne_nil sep rest)
      | cons t ts =>
        rw [hs] at ih
        simp only [List.length_cons] at ih ⊢
        simp [ih, List.count_cons, hc]

theorem splitGo_headI (sep : Char) (l : List Char) :
    (splitGo sep l).headI = l.takeWhile (fun c => !(c == sep)) := by
  induction l with
  | nil => rfl
  | cons c rest ih =>
    by_cases hc : c = sep
    · subst hc
      simp [splitGo, List.takeWhile]
    · simp only [splitGo, hc, if_false, reduceIte]
      cases hs : splitGo sep rest with
      | nil => exact absurd hs (splitGo_ne_nil sep rest)
      | cons t ts =>
        rw [hs] at ih
        simp only [List.headI] at ih
        have hb : (!(c == sep)) = true := by simp [hc]
        simp [List.takeWhile, hb, ← ih]

theorem takeWhile_append_singleton_neg {p : Char → Bool} {xs : List Char} {a : Char}
    (h : p a = false) : (xs ++ [a]).takeWhile p = xs.takeWhile p := by
  rw [List.takeWhile_append]
  split
  · next hlen =>
    have hself := ( List.takeWhile_prefix p).eq_of_length hlen
    simp [List.takeWhile, h, hself]
  · rfl

theorem getLastD_of_ne_nil {α : Type} {l : List α} (h : l ≠ []) (d1 d2 : α) :
    l.getLastD d1 = l.getLastD d2 := by
  rw [List.getLastD_eq_getLast?, List.getLastD_eq_getLast?,
    List.getLast?_eq_getLast l h]
  rfl

theorem splitGo_getLastD (sep : Char) (l : List Char) :
    (splitGo sep l).getLastD [] = (l.reverse.takeWhile (fun c => !(c == sep))).reverse := by
  induction l with
  | nil => rfl
  | cons c rest ih =>
    by_cases hc : c = sep
    · subst hc
      simp only [splitGo, reduceIte, List.getLastD_cons, List.reverse_cons]
      rw [takeWhile_append_singleton_neg (by simp)]
      exact ih
    · simp only [splitGo, hc, if_false, reduceIte]
      cases hs : splitGo sep rest with
      | nil => exact absurd hs (splitGo_ne_nil sep rest)
      | cons t ts =>
        rw [hs, List.getLastD_cons] at ih
        rw [List.reverse_cons]
        have hcount := length_splitGo sep rest
        rw [hs] at hcount
        simp only [List.length_cons] at hcount
        by_cases hts : ts = []
        · -- `rest` has no separator: the whole remainder is the last token
          subst hts
          simp only [List.length_nil] at hcount
          have hnotmem : sep ∉ rest := by
            rw [← List.count_eq_zero (a := sep) (l := rest)]
            omega
          have hrest : t = rest := by
            have := splitGo_no_sep sep rest hnotmem
            rw [hs] at this
            simpa using this
          have hall : rest.reverse.takeWhile (fun c => !(c == sep)) = rest.reverse := by
            rw [List.takeWhile_eq_self_iff]
            intro x hx
            simp only [Bool.not_eq_eq_eq_not, Bool.not_true, beq_eq_false_iff_ne]
            intro hxsep
            exact hnotmem (by rw [← hxsep]; exact List.mem_reverse.1 hx)
          rw [List.takeWhile_append, if_pos (by rw [hall])]
          have hone : List.takeWhile (fun c => !(c == sep)) [c] = [c] := by
            have hb : (!(c == sep)) = true := by simp [hc]
            simp [List.takeWhile, hb]
          simp [hall, hone, hrest]
        · -- the last token lies inside `rest`
          have hmem : sep ∈ rest := by
            by_contra hnm
            rw [← List.count_eq_zero (a := sep) (l := rest)] at hnm
            have : ts.length = 0 := by omega
            exact hts (List.length_eq_zero.1 this)
          have hnotall : ¬ ((rest.reverse.takeWhile (fun c => !(c == sep))).length =
              rest.reverse.length) := by
            intro hlen
            have hself : rest.reverse.takeWhile (fun c => !(c == sep)) = rest.reverse :=
              ( List.takeWhile_prefix _).eq_of_length hlen
            have hall := List.takeWhile_eq_self_iff.1 hself sep (List.mem_reverse.2 hmem)
            simp at hall
          rw [List.getLastD_cons, getLastD_of_ne_nil hts (c :: t) t, ih,
            List.takeWhile_append, if_neg hnotall]

/-! ### Facts about the heap primitives -/

theorem nth_eq_getElem {l : List Int} {i : Nat} (h : i < l.length) : nth l i = l[i] := by
  simp [nth, List.getD_eq_getElem?_getD, List.getElem?_eq_getElem h]

theorem nth_set_self {l : List Int} {i : Nat} {x : Int} (h : i < l.length) :
    nth (l.set i x) i = x := by
  simp [nth, List.getD_eq_getElem?_getD, List.getElem?_set_self h]

theorem nth_set_ne {l : List Int} {i k : Nat} {x : Int} (h : i ≠ k) :
    nth (l.set i x) k = nth l k := by
  simp [nth, List.getD_eq_getElem?_getD, List.getElem?_set_ne h]

theorem length_swapL (l : List Int) (i j : Nat) : (swapL l i j).length = l.length := by
  simp [swapL]

theorem nth_swapL_left {l : List Int} {i j : Nat} (hi : i < l.length) (hj : j < l.length) :
    nth (swapL l i j) i = nth l j := by
  rcases eq_or_ne i j with rfl | hij
  · rw [swapL, nth_set_self (by simpa using hi)]
  · rw [swapL, nth_set_ne (Ne.symm hij), nth_set_self hi]

theorem nth_swapL_right {l : List Int} {i j : Nat} (hj : j < l.length) :
    nth (swapL l i j) j = nth l i := by
  rw [swapL, nth_set_self (by simpa using hj)]

theorem nth_swapL_other {l : List Int} {i j k : Nat} (hki : k ≠ i) (hkj : k ≠ j) :
    nth (swapL l i j) k = nth l k := by
  rw [swapL, nth_set_ne (Ne.symm hkj), nth_set_ne (Ne.symm hki)]

theorem count_swapL {l : List Int} {i j : Nat} (hi : i < l.length) (hj : j < l.length)
    (a : Int) : (swapL l i j).count a = l.count a := by
  have hj' : j < (l.set i (nth l j)).length := by simpa using hj
  rw [swapL, List.count_set _ _ _ _ hj', List.count_set _ _ _ _ hi]
  simp only [List.getElem_set, nth_eq_getElem hi, nth_eq_getElem hj]
  by_cases hA : (l[i] == a) = true
  · have hpos : 1 ≤ l.count a := by
      refine List.count_pos_iff.2 ?_
      have hia : l[i] = a := by simpa using hA
      rw [← hia]
      exact List.getElem_mem hi
    rcases eq_or_ne i j with rfl | hij
    · simp [hA]
      omega
    · by_cases hB : (l[j] == a) = true <;> simp [hA, hB, hij] <;> omega
  · rcases eq_or_ne i j with rfl | hij
    · simp [hA]
    · by_cases hB : (l[j] == a) = true <;> simp [hA, hB, hij]

theorem perm_swapL {l : List Int} {i j : Nat} (hi : i < l.length) (hj : j < l.length) :
    (swapL l i j).Perm l :=
  List.perm_iff_count.2 (count_swapL hi hj)

theorem length_downAux : ∀ (fuel : Nat) (l : List Int) (i n : Nat),
    (downAux fuel l i n).length = l.length := by
  intro fuel
  induction fuel with
  | zero => intro l i n; rfl
  | succ fuel ih =>
    intro l i n
    simp only [downAux]
    split
    · rfl
    · generalize (if 2 * i + 1 + 1 < n ∧ nth l (2 * i + 1 + 1) < nth l (2 * i + 1)
          then 2 * i + 1 + 1 else 2 * i + 1) = j
      split
      · rfl
      · rw [ih, length_swapL]

theorem perm_downAux : ∀ (fuel : Nat) (l : List Int) (i n : Nat), n ≤ l.length →
    (downAux fuel l i n).Perm l := by
  intro fuel
  induction fuel with
  | zero => intro l i n _; exact List.Perm.refl l
  | succ fuel ih =>
    intro l i n hn
    simp only [downAux]
    split
    · exact List.Perm.refl l
    · next h1 =>
      generalize hJ : (if 2 * i + 1 + 1 < n ∧ nth l (2 * i + 1 + 1) < nth l (2 * i + 1)
          then 2 * i + 1 + 1 else 2 * i + 1) = j
      have hjn : j < n := by
        rw [← hJ]; split <;> omega
      split
      · exact List.Perm.refl l
      · exact ((ih (swapL l i j) j n (by rw [length_swapL]; exact hn)).trans
          (perm_swapL (by omega) (by omega)))

theorem nth_downAux_ge : ∀ (fuel : Nat) (l : List Int) (i n k : Nat), n ≤ k →
    nth (downAux fuel l i n) k = nth l k := by
  intro fuel
  induction fuel with
  | zero => intro l i n k _; rfl
  | succ fuel ih =>
    intro l i n k hk
    simp only [downAux]
    split
    · rfl
    · next h1 =>
      generalize hJ : (if 2 * i + 1 + 1 < n ∧ nth l (2 * i + 1 + 1) < nth l (2 * i + 1)
          then 2 * i + 1 + 1 else 2 * i + 1) = j
      have hjn : j < n := by
        rw [← hJ]; split <;> omega
      split
      · rfl
      · rw [ih _ _ _ _ hk, nth_swapL_other (by omega) (by omega)]

theorem downAux_isHeapN :
    ∀ (fuel : Nat) (l : List Int) (i n : Nat), n ≤ fuel + i → n ≤ l.length →
      DownPre l n i → IsHeapN (downAux fuel l i n) n := by
  intro fuel
  induction fuel with
  | zero =>
    intro l i n hfi hn hpre
    intro c hc0 hcn
    exact hpre.1 c hc0 hcn (by omega)
  | succ fuel ih =>
    intro l i n hfi hn hpre
    obtain ⟨hp1, hp2⟩ := hpre
    simp only [downAux]
    split
    · next h1 =>
      intro c hc0 hcn
      exact hp1 c hc0 hcn (by omega)
    · next h1 =>
      generalize hJ : (if 2 * i + 1 + 1 < n ∧ nth l (2 * i + 1 + 1) < nth l (2 * i + 1)
          then 2 * i + 1 + 1 else 2 * i + 1) = j
      have hj_cases : j = 2 * i + 1 ∨ j = 2 * i + 1 + 1 := by
        rw [← hJ]; split
        · right; rfl
        · left; rfl
      have hjn : j < n := by
        rw [← hJ]; split <;> omega
      have hjpar : (j - 1) / 2 = i := by
        rcases hj_cases with rfl | rfl <;> omega
      have hij : i < j := by
        rcases hj_cases with rfl | rfl <;> omega
      have hm1 : nth l j ≤ nth l (2 * i + 1) := by
        rw [← hJ]; split
        · next h => exact le_of_lt h.2
        · exact le_refl _
      have hm2 : 2 * i + 1 + 1 < n → nth l j ≤ nth l (2 * i + 1 + 1) := by
        intro h2n
        rw [← hJ]; split
        · exact le_refl _
        · next h => exact not_lt.1 (fun hlt => h ⟨h2n, hlt⟩)
      have hiln : i < l.length := by omega
      have hjln : j < l.length := by omega
      split
      · next h2 =>
        have hile : nth l i ≤ nth l j := not_lt.1 (by simpa using h2)
        intro c hc0 hcn
        by_cases hpar : (c - 1) / 2 = i
        · rw [hpar]
          have hcc : c = 2 * i + 1 ∨ c = 2 * i + 1 + 1 := by omega
          rcases hcc with rfl | rfl
          · exact le_trans hile hm1
          · exact le_trans hile (hm2 hcn)
        · exact hp1 c hc0 hcn hpar
      · next h2 =>
        have h2 : nth l j < nth l i := by
          by_contra hcon
          exact h2 hcon
        refine ih (swapL l i j) j n (by omega) (by rw [length_swapL]; exact hn) ?_
        refine ⟨?_, ?_⟩
        · intro c hc0 hcn hcpar
          by_cases hci : c = i
          · have h0i : 0 < i := hci ▸ hc0
            have hgne_i : (c - 1) / 2 ≠ i := by omega
            rw [nth_swapL_other hgne_i hcpar, hci, nth_swapL_left hiln hjln]
            have hpp : (i - 1) / 2 ≤ (i - 1) / 2 := le_refl _
            exact hp2 h0i j hjn hjpar
          · by_cases hcj : c = j
            · have hpar_i : (c - 1) / 2 = i := by omega
              rw [hpar_i, nth_swapL_left hiln hjln, hcj, nth_swapL_right hjln]
              exact le_of_lt h2
            · by_cases hpi : (c - 1) / 2 = i
              · rw [hpi, nth_swapL_left hiln hjln, nth_swapL_other hci hcj]
                have hcc : c = 2 * i + 1 ∨ c = 2 * i + 1 + 1 := by omega
                rcases hcc with rfl | rfl
                · exact hm1
                · exact hm2 hcn
              · rw [nth_swapL_other hpi hcpar, nth_swapL_other hci hcj]
                exact hp1 c hc0 hcn hpi
        · intro h0j c hcn hcpar
          have hc0 : 0 < c := by omega
          have hcne_i : c ≠ i := by omega
          have hcne_j : c ≠ j := by omega
          rw [hjpar, nth_swapL_left hiln hjln, nth_swapL_other hcne_i hcne_j]
          have := hp1 c hc0 hcn (by omega)
          rw [hcpar] at this
          exact this

theorem goDown_isHeapN {l : List Int} {n : Nat} (hn : n ≤ l.length)
    (hpre : DownPre l n 0) : IsHeapN (goDown l 0 n) n :=
  downAux_isHeapN n l 0 n (by omega) hn hpre

theorem downAux_of_isHeapN {l : List Int} {n : Nat} (h : IsHeapN l n)
    (fuel i : Nat) : downAux fuel l i n = l := by
  cases fuel with
  | zero => rfl
  | succ fuel =>
    simp only [downAux]
    split
    · rfl
    · next h1 =>
      generalize hJ : (if 2 * i + 1 + 1 < n ∧ nth l (2 * i + 1 + 1) < nth l (2 * i + 1)
          then 2 * i + 1 + 1 else 2 * i + 1) = j
      have hjn : j < n := by
        rw [← hJ]; split <;> omega
      have hjpar : (j - 1) / 2 = i := by
        rw [← hJ]; split <;> omega
      have hj0 : 0 < j := by
        rw [← hJ]; split <;> omega
      rw [if_pos]
      have := h j hj0 hjn
      rw [hjpar] at this
      exact not_lt.2 this

theorem initAux_of_isHeap {l : List Int} (h : IsHeapN l l.length) :
    ∀ k, initAux k l = l := by
  intro k
  induction k with
  | zero => rfl
  | succ k ih =>
    simp only [initAux]
    rw [show goDown l k l.length = l from downAux_of_isHeapN h _ _]
    exact ih

theorem isHeapN_root_le {l : List Int} {n : Nat} (h : IsHeapN l n) :
    ∀ j, j < n → nth l 0 ≤ nth l j := by
  intro j
  induction j using Nat.strong_induction_on with
  | _ j ih =>
    intro hjn
    rcases Nat.eq_zero_or_pos j with rfl | hj0
    · exact le_refl _
    · exact le_trans (ih ((j - 1) / 2) (by omega) (by omega)) (h j hj0 hjn)

theorem length_upAux : ∀ (fuel : Nat) (l : List Int) (j : Nat),
    (upAux fuel l j).length = l.length := by
  intro fuel
  induction fuel with
  | zero => intro l j; rfl
  | succ fuel ih =>
    intro l j
    simp only [upAux]
    split
    · rfl
    · rw [ih, length_swapL]

theorem perm_upAux : ∀ (fuel : Nat) (l : List Int) (j : Nat), j < l.length →
    (upAux fuel l j).Perm l := by
  intro fuel
  induction fuel with
  | zero => intro l j _; exact List.Perm.refl l
  | succ fuel ih =>
    intro l j hj
    simp only [upAux]
    split
    · exact List.Perm.refl l
    · next hstop =>
      push_neg at hstop
      obtain ⟨hne, _⟩ := hstop
      have hij : (j - 1) / 2 < j := by omega
      exact ((ih (swapL l ((j - 1) / 2) j) ((j - 1) / 2)
        (by rw [length_swapL]; omega)).trans (perm_swapL (by omega) hj))

theorem upAux_isHeapN :
    ∀ (fuel : Nat) (l : List Int) (j n : Nat), j < fuel → n = l.length → j < n →
      UpPre l n j → IsHeapN (upAux fuel l j) n := by
  intro fuel
  induction fuel with
  | zero => intro l j n hj _ _ _; exact absurd hj (Nat.not_lt_zero j)
  | succ fuel ih =>
    intro l j n hjf hnl hjn hup
    obtain ⟨hu1, hu2⟩ := hup
    simp only [upAux]
    split
    · next hstop =>
      intro c hc0 hcn
      by_cases hcj : c = j
      · rcases hstop with heq | hle
        · omega
        · rw [hcj]
          exact not_lt.1 hle
      · exact hu1 c hc0 hcn hcj
    · next hstop =>
      push_neg at hstop
      obtain ⟨hne, hlt⟩ := hstop
      have hj0 : 0 < j := by omega
      have hij : (j - 1) / 2 < j := by omega
      have hiln : (j - 1) / 2 < l.length := by omega
      have hjln : j < l.length := by omega
      refine ih (swapL l ((j - 1) / 2) j) ((j - 1) / 2) n (by omega)
        (by rw [length_swapL]; exact hnl) (by omega) ⟨?_, ?_⟩
      · intro c hc0 hcn hci
        by_cases hcj : c = j
        · have hpc : (c - 1) / 2 = (j - 1) / 2 := by rw [hcj]
          rw [hpc, nth_swapL_left hiln hjln, hcj, nth_swapL_right hjln]
          exact le_of_lt hlt
        · by_cases hpi : (c - 1) / 2 = (j - 1) / 2
          · rw [hpi, nth_swapL_left hiln hjln, nth_swapL_other hci hcj]
            have hedge := hu1 c hc0 hcn hcj
            rw [hpi] at hedge
            exact le_of_lt (lt_of_lt_of_le hlt hedge)
          · by_cases hpj : (c - 1) / 2 = j
            · rw [hpj, nth_swapL_right hjln, nth_swapL_other hci hcj]
              exact hu2 hj0 c hc0 hcn hpj
            · rw [nth_swapL_other hpi hpj, nth_swapL_other hci hcj]
              exact hu1 c hc0 hcn hcj
      · intro h0i c hc0 hcn hpci
        have hgi : ((j - 1) / 2 - 1) / 2 ≠ (j - 1) / 2 := by omega
        have hgj : ((j - 1) / 2 - 1) / 2 ≠ j := by omega
        rw [nth_swapL_other hgi hgj]
        by_cases hcj : c = j
        · rw [hcj, nth_swapL_right hjln]
          exact hu1 ((j - 1) / 2) h0i (by omega) hne
        · have hcii : c ≠ (j - 1) / 2 := by omega
          rw [nth_swapL_other hcii hcj]
          have hgedge := hu1 ((j - 1) / 2) h0i (by omega) hne
          have hcedge := hu1 c hc0 hcn hcj
          rw [hpci] at hcedge
          exact le_trans hgedge hcedge

theorem nth_append_lt {l l' : List Int} {k : Nat} (h : k < l.length) :
    nth (l ++ l') k = nth l k := by
  simp [nth, List.getD_eq_getElem?_getD, List.getElem?_append, h]

theorem nth_take_lt {l : List Int} {k m : Nat} (h : k < m) :
    nth (l.take m) k = nth l k := by
  simp [nth, List.getD_eq_getElem?_getD, List.getElem?_take, h]

theorem heapPush_isHeap {l : List Int} (h : IsHeap l) (x : Int) :
    IsHeap (heapPush l x) := by
  have hlen : (heapPush l x).length = l.length + 1 := by
    simp [heapPush, goUp, length_upAux]
  show IsHeapN (heapPush l x) ((heapPush l x).length)
  rw [hlen, heapPush, goUp]
  refine upAux_isHeapN (l.length + 1) (l ++ [x]) l.length (l.length + 1)
    (by omega) (by simp) (by omega) ⟨?_, ?_⟩
  · intro c hc0 hcn hcj
    have hc : c < l.length := by omega
    have hpar : (c - 1) / 2 < l.length := by omega
    rw [nth_append_lt hc, nth_append_lt hpar]
    exact h c hc0 hc
  · intro h0 c hc0 hcn hpc
    exact absurd hpc (by omega)

theorem contents_heapPush (l : List Int) (x : Int) :
    contents (heapPush l x) = x ::ₘ contents l := by
  have hperm : (heapPush l x).Perm (x :: l) :=
    (perm_upAux (l.length + 1) (l ++ [x]) l.length (by simp)).trans
      (List.perm_append_singleton x l)
  exact Quot.sound hperm

theorem heapPop_spec {l : List Int} (hne : l ≠ []) (hheap : IsHeap l) :
    ∃ rest, heapPop l = some (nth l 0, rest) ∧ IsHeap rest ∧
      nth l 0 ::ₘ contents rest = contents l ∧ ∀ x ∈ contents l, nth l 0 ≤ x := by
  obtain ⟨a, l', rfl⟩ := List.exists_cons_of_ne_nil hne
  have hpop : heapPop (a :: l') =
      some (nth (goDown (swapL (a :: l') 0 ((a :: l').length - 1)) 0 ((a :: l').length - 1))
              ((a :: l').length - 1),
            (goDown (swapL (a :: l') 0 ((a :: l').length - 1)) 0
              ((a :: l').length - 1)).dropLast) := rfl
  simp only [List.length_cons, Nat.add_sub_cancel] at hpop
  set l1 := swapL (a :: l') 0 l'.length with hl1
  set l2 := goDown l1 0 l'.length with hl2
  have hlen : (a :: l').length = l'.length + 1 := by simp
  have hlen1 : l1.length = l'.length + 1 := by rw [hl1, length_swapL, hlen]
  have hlen2 : l2.length = l'.length + 1 := by rw [hl2, goDown, length_downAux, hlen1]
  have hnlt : l'.length < (a :: l').length := by omega
  have hval : nth l2 l'.length = nth (a :: l') 0 := by
    rw [hl2, goDown, nth_downAux_ge _ _ _ _ _ (le_refl _), hl1,
      nth_swapL_right hnlt]
  have hpre : DownPre l1 l'.length 0 := by
    refine ⟨?_, ?_⟩
    · intro j hj0 hjn hjne
      rw [hl1, nth_swapL_other hjne (by omega),
        nth_swapL_other (show j ≠ 0 by omega) (show j ≠ l'.length by omega)]
      exact hheap j hj0 (by omega)
    · intro h0
      exact absurd h0 (lt_irrefl 0)
  have hheap2 : IsHeapN l2 l'.length := by
    rw [hl2]
    exact goDown_isHeapN (by omega) hpre
  have hl2ne : l2 ≠ [] := by
    intro hnil
    rw [hnil] at hlen2
    simp at hlen2
  have hrlen : l2.dropLast.length = l'.length := by
    rw [List.length_dropLast]
    omega
  have hresth : IsHeap l2.dropLast := by
    show IsHeapN l2.dropLast l2.dropLast.length
    rw [hrlen, List.dropLast_eq_take]
    have hl21 : l2.length - 1 = l'.length := by omega
    rw [hl21]
    intro j hj0 hjn
    rw [nth_take_lt hjn, nth_take_lt (show (j - 1) / 2 < l'.length by omega)]
    exact hheap2 j hj0 hjn
  have hsplit : l2.dropLast ++ [nth l2 l'.length] = l2 := by
    have hgl : l2.getLast hl2ne = nth l2 l'.length := by
      rw [List.getLast_eq_getElem, nth_eq_getElem (by omega)]
      have : l2.length - 1 = l'.length := by omega
      simp only [this]
    rw [← hgl]
    exact List.dropLast_append_getLast hl2ne
  have hperm : l2.Perm (a :: l') := by
    rw [hl2, goDown]
    refine (perm_downAux _ _ _ _ (by omega)).trans ?_
    rw [hl1]
    exact perm_swapL (by simp) hnlt
  refine ⟨l2.dropLast, ?_, hresth, ?_, ?_⟩
  · rw [hpop, hval]
  · have h1 : contents l2 = nth l2 l'.length ::ₘ contents l2.dropLast := by
      conv_lhs => rw [← hsplit]
      exact Quot.sound (List.perm_append_singleton _ _)
    have hc2 : contents l2 = contents (a :: l') := Quot.sound hperm
    rw [← hval, ← hc2, h1]
  · intro x hx
    obtain ⟨k, hkl, hke⟩ := List.getElem_of_mem (Multiset.mem_coe.1 hx)
    have := isHeapN_root_le (n := (a :: l').length) hheap k hkl
    rw [nth_eq_getElem hkl, hke] at this
    exact this

theorem nth_rangeList {N j : Nat} (h : j < N) :
    nth (rangeUIDs N) j = Int.ofNat j + 1 := by
  rw [rangeUIDs, nth, List.getD_eq_getElem?_getD, List.getElem?_map,
    List.getElem?_range h]
  rfl

theorem isHeapN_rangeList (N : Nat) :
    IsHeapN (rangeUIDs N) N := by
  intro j hj0 hjn
  rw [nth_rangeList (by omega), nth_rangeList hjn]
  have hle : ((j - 1) / 2 : Nat) ≤ j := by omega
  have h1 := Nat.add_le_add_right hle 1
  show (((j - 1) / 2 : Nat) : Int) + 1 ≤ (j : Int) + 1
  exact_mod_cast h1

theorem length_rangeUIDs (N : Nat) : (rangeUIDs N).length = N := by
  rw [rangeUIDs, List.length_map, List.length_range]

theorem createHeap_eq (N : Nat) : createHeap N = rangeUIDs N := by
  rw [createHeap, newHeap, heapInit]
  exact initAux_of_isHeap (by rw [length_rangeUIDs]; exact isHeapN_rangeList N) _

theorem contents_createHeap (N : Nat) : contents (createHeap N) = initContents N := by
  rw [createHeap_eq]
  rfl

theorem isHeap_createHeap (N : Nat) : IsHeap (createHeap N) := by
  show IsHeapN (createHeap N) (createHeap N).length
  rw [createHeap_eq, length_rangeUIDs]
  exact isHeapN_rangeList N

/-- The allocator invariant: along any `Take`/`Free` discipline the heap
stays a binary min-heap and, together with the taken UIDs, always holds
exactly the initial multiset `{1, ..., N}`. -/
theorem alloc_inv {N : Nat} {s : AllocState} (h : AllocReachable N s) :
    IsHeap s.heap ∧ contents s.heap + s.taken = initContents N := by
  induction h with
  | refl =>
    refine ⟨isHeap_createHeap N, ?_⟩
    rw [show (allocInit N).taken = 0 from rfl, show (allocInit N).heap = createHeap N from rfl,
      contents_createHeap]
    simp
  | @tail s t hsteps hstep ih =>
    obtain ⟨hheap, hsum⟩ := ih
    cases hstep with
    | take v h' hpop =>
      have hne : s.heap ≠ [] := by
        intro hnil
        rw [uidTake, hnil] at hpop
        simp [heapPop] at hpop
      obtain ⟨rest, hpe, hrh, hcons, hmin⟩ := heapPop_spec hne hheap
      rw [uidTake, hpe] at hpop
      have hvr : nth s.heap 0 = v ∧ rest = h' := by
        simpa [Prod.ext_iff] using hpop
      obtain ⟨hv, hr⟩ := hvr
      subst hv
      subst hr
      refine ⟨hrh, ?_⟩
      show contents rest + (nth s.heap 0 ::ₘ s.taken) = initContents N
      rw [Multiset.add_cons, ← Multiset.cons_add, hcons]
      exact hsum
    | free id hid =>
      refine ⟨heapPush_isHeap hheap id, ?_⟩
      show contents (uidFree s.heap id) + s.taken.erase id = initContents N
      rw [uidFree, contents_heapPush, Multiset.cons_add, ← Multiset.add_cons,
        Multiset.cons_erase hid]
      exact hsum

/-! ## Claim theorems -/

/-- C1, counterexample.  The claimed round-trip `decode (encode s) = s`
fails at `s = "<num>"`: `encode` leaves it unchanged (no reserved byte
occurs in it) and `decode` then turns it into `"#"`. -/
theorem c1_roundtrip_counterexample :
    decode (encode ['<', 'n', 'u', 'm', '>']) ≠ ['<', 'n', 'u', 'm', '>'] := by
  decide

/-- C1, amended.  For every string that does not contain one of the
escape sequences `<percent>`, `<and>`, `<num>`, `<dollar>` as a
substring, decoding the encoded form returns the original: the encoder
escapes each reserved byte and the decoder inverts exactly those
escapes. -/
theorem c1_roundtrip (s : List Char) (h : ∀ t ∈ aoTokens, ¬ t <:+: s) :
    decode (encode s) = s :=
  decode_encode_of_noTok s h

/-- C1, witness. -/
theorem c1_roundtrip_witness :
    decode (encode ['a', '%', 'b', '#', 'c', '$', '&']) =
      ['a', '%', 'b', '#', 'c', '$', '&'] :=
  c1_roundtrip ['a', '%', 'b', '#', 'c', '$', '&'] (by decide)

/-- C2, code bug.  With both `ipid` and `hdid` empty, `AddBan` does
not fail: the `case ipid == ""` arm of the `switch` matches before the
`default` arm, so a row with SQL `NULL` ipid and *empty-string* hdid is
inserted with a nil error, and the error string
`"db: IPID and HDID cannot both be empty."` is unreachable.  (The
`bans` CHECK constraint passes too: an empty string is not `NULL`.) -/
theorem c2_addBan_both_empty :
    addBan 100 "" "" "cheating" "mod" 3600 =
      .inserted ⟨none, some "", "cheating", "mod", 100, 3700⟩ := by
  decide

/-- C3, counterexample.  The claimed values `MutedIC = 1`,
`MutedOOC = 2`, `MutedMusic = 4`, `MutedJudge = 8` are wrong: `Unmuted`
is the first const spec of the block, so `iota = 1` at `MutedIC`. -/
theorem c3_mute_bits_counterexample :
    ¬ (MutedIC = 1 ∧ MutedOOC = 2 ∧ MutedMusic = 4 ∧ MutedJudge = 8 ∧
       MutedAll = (MutedIC ||| MutedOOC ||| MutedMusic ||| MutedJudge)) := by
  decide

/-- C3, amended.  The mute bits are `MutedIC = 2`, `MutedOOC = 4`,
`MutedMusic = 8`, `MutedJudge = 16` (with `Unmuted = 0`), and
`MutedAll` — modelled from the spec as the OR of all four — is `30`. -/
theorem c3_mute_bits :
    MutedIC = 2 ∧ MutedOOC = 4 ∧ MutedMusic = 8 ∧ MutedJudge = 16 ∧
    Unmuted = 0 ∧ MutedAll = (MutedIC ||| MutedOOC ||| MutedMusic ||| MutedJudge) ∧
    MutedAll = 30 := by
  decide

/-- C4, code bug.  `GetNameByCID` on a one-slot room: the spectator
and documented out-of-bounds cases behave as claimed, but at
`cid = len(chars) = 1` the bounds check `cid < 0 || cid > len(r.chars)`
does not fire and the indexing `r.chars[1]` panics (`none`) instead of
returning `""`. -/
theorem c4_getNameByCID_bounds :
    getNameByCID [⟨"Phoenix", false⟩] (-1) = some "Spectator" ∧
    getNameByCID [⟨"Phoenix", false⟩] 0 = some "Phoenix" ∧
    getNameByCID [⟨"Phoenix", false⟩] 2 = some "" ∧
    getNameByCID [⟨"Phoenix", false⟩] (-5) = some "" ∧
    getNameByCID [⟨"Phoenix", false⟩] 1 = none := by
  decide

/-- C5.  `CheckAuth` after a successful `AddAuth(u, p, r)`: the right
password authenticates to `(true, r)` with no error; a wrong password or
an unknown user yields `(false, "")` with no error; and a storage error
is reported as a non-nil error value, not as an authentication failure.
The bcrypt pair is abstract: `compare` accepts exactly the hashed
password (hypotheses `hok`, `hne`). -/
theorem c5_checkAuth_spec (hash : String → String) (compare : String → String → Bool)
    (table t' : List AuthRow) (u p r : String)
    (hfresh : lookupAuth table u = none)
    (hadd : addAuth hash table u p r = Except.ok t')
    (hok : compare (hash p) p = true)
    (hne : ∀ q, q ≠ p → compare (hash p) q = false) :
    checkAuth compare t' u p = ((true, r), none) ∧
    (∀ q, q ≠ p → checkAuth compare t' u q = ((false, ""), none)) ∧
    (∀ v, lookupAuth t' v = none → checkAuth compare t' v p = ((false, ""), none)) ∧
    (∀ e p', checkAuthScan compare (.failure e) p' = ((false, ""), some e)) := by
  have ht' : t' = table ++ [⟨u, hash p, r⟩] := by
    rw [addAuth, hfresh] at hadd
    simpa using hadd.symm
  have hlook : lookupAuth t' u = some ⟨u, hash p, r⟩ := by
    rw [ht', lookupAuth, List.find?_append]
    rw [lookupAuth] at hfresh
    rw [hfresh]
    simp [List.find?]
  refine ⟨?_, ?_, ?_, ?_⟩
  · rw [checkAuth, queryAuth, hlook]
    simp [checkAuthScan, hok]
  · intro q hq
    rw [checkAuth, queryAuth, hlook]
    simp [checkAuthScan, hne q hq]
  · intro v hv
    rw [checkAuth, queryAuth, hv]
    rfl
  · intro e p'
    rfl

/-- C5, witness. -/
theorem c5_checkAuth_spec_witness :
    checkAuth (fun h q => h == q) [⟨"alice", "pw", "admin"⟩] "alice" "pw" =
      ((true, "admin"), none) :=
  (c5_checkAuth_spec (fun s => s) (fun h q => h == q) [] [⟨"alice", "pw", "admin"⟩]
    "alice" "pw" "admin" rfl rfl (by decide)
    (fun q hq => beq_eq_false_iff_ne.mpr (Ne.symm hq))).1

/-- C7, counterexample.  The claim "whenever the client sends a true
value *or the room forces immediate*, the server sets `resp[22]` to `"1"`
and remaps the emote mod" fails when the client omits the field: with
`force_immediate` on and `resp[22] = ""`, the accepted packet keeps
`resp[22] = "0"` and `resp[7] = "6"` unremapped. -/
theorem c7_immediate_counterexample :
    ¬ (∀ (force : Bool) (r7 r22 out7 out22 : String),
        immediateStep force r7 r22 = some (out7, out22) →
        ((r22 = "" → out22 = "0") ∧
         ((parseBool r22 = some true ∨ force = true) →
           out22 = "1" ∧ out7 = remapEmoteMod r7))) := by
  intro hclaim
  have h := (hclaim true "6" "" "6" "0" (by decide)).2 (Or.inr rfl)
  exact absurd h.1 (by decide)

/-- C7, amended.  In every accepted `MS` packet: an omitted
immediate field defaults to `"0"` with the emote mod untouched (even if
the room forces immediate); and whenever the client sends a value that
parses as a boolean which is true, or sends any parseable value while
the room forces immediate, the field is set to `"1"` and the emote mod
is remapped `1→0`, `2→0`, `6→5`. -/
theorem c7_immediate_step (force : Bool) (r7 r22 out7 out22 : String)
    (h : immediateStep force r7 r22 = some (out7, out22)) :
    (r22 = "" → out22 = "0" ∧ out7 = r7) ∧
    (∀ b, parseBool r22 = some b → (b = true ∨ force = true) →
      out22 = "1" ∧ out7 = remapEmoteMod r7) := by
  rw [immediateStep] at h
  by_cases h22 : r22 = ""
  · rw [if_pos h22] at h
    have h' : r7 = out7 ∧ "0" = out22 := by simpa [Prod.ext_iff] using h
    refine ⟨fun _ => ⟨h'.2.symm, h'.1.symm⟩, ?_⟩
    intro b hb
    rw [h22] at hb
    simp [parseBool] at hb
  · rw [if_neg h22] at h
    cases hbv : parseBool r22 with
    | none =>
      rw [hbv] at h
      exact absurd h (by simp)
    | some b =>
      rw [hbv] at h
      dsimp only at h
      refine ⟨fun hc => absurd hc h22, ?_⟩
      intro b' hb' hor
      have hbb : b = b' := by simpa using hb'
      subst hbb
      have hcond : (b || force) = true := by
        rcases hor with rfl | hf
        · simp
        · rw [hf]
          simp
      rw [if_pos hcond] at h
      have h' : remapEmoteMod r7 = out7 ∧ "1" = out22 := by simpa [Prod.ext_iff] using h
      exact ⟨h'.2.symm, h'.1.symm⟩

/-- C7, witness. -/
theorem c7_immediate_step_witness :
    immediateStep false "1" "true" = some ("0", "1") ∧
    ∀ b, parseBool "true" = some b → (b = true ∨ false = true) →
      "1" = "1" ∧ "0" = remapEmoteMod "1" :=
  ⟨by decide, (c7_immediate_step false "1" "true" "0" "1" (by decide)).2⟩

/-- C9.  `MakeAOPacket`: with no `#` in the raw bytes (fewer than
two tokens) the zero packet is returned; otherwise the header is the
text before the first `#`, and the contents are all later tokens except
the final one — the text after the last `#` — which is discarded. -/
theorem c9_makeAOPacket (raw : List Char) :
    (('#' ∉ raw) → makeAOPacket raw = ⟨[], []⟩) ∧
    ('#' ∈ raw →
      (makeAOPacket raw).header = raw.takeWhile (fun c => !(c == '#')) ∧
      (makeAOPacket raw).contents ++
          [(raw.reverse.takeWhile (fun c => !(c == '#'))).reverse] =
        (splitGo '#' raw).tail) := by
  constructor
  · intro hno
    rw [makeAOPacket]
    rw [splitGo_no_sep _ _ hno]
    simp
  · intro hmem
    have hlen : (splitGo '#' raw).length = raw.count '#' + 1 := length_splitGo _ _
    have hcpos : 0 < raw.count '#' := List.count_pos_iff.2 hmem
    have h2 : ¬ (splitGo '#' raw).length < 2 := by omega
    constructor
    · simp only [makeAOPacket, if_neg h2]
      exact splitGo_headI '#' raw
    · simp only [makeAOPacket, if_neg h2]
      cases hp : splitGo '#' raw with
      | nil => exact absurd hp (splitGo_ne_nil _ _)
      | cons p0 t =>
        have ht_ne : t ≠ [] := by
          intro h
          subst h
          rw [hp] at hlen
          simp at hlen
          omega
        have hgld : (p0 :: t).getLastD [] = t.getLast ht_ne := by
          rw [List.getLastD_cons, List.getLastD_eq_getLast?,
            List.getLast?_eq_getLast t ht_ne]
          rfl
        have hlast : (raw.reverse.takeWhile (fun c => !(c == '#'))).reverse =
            t.getLast ht_ne := by
          rw [← splitGo_getLastD '#' raw, hp, hgld]
        simp only [hp, List.tail_cons]
        rw [hlast]
        exact List.dropLast_append_getLast ht_ne

/-- C9, witness. -/
theorem c9_makeAOPacket_witness :
    ('#' ∈ ['H', 'I', '#', 'a', '#', '%']) ∧
    (makeAOPacket ['H', 'I', '#', 'a', '#', '%']).header =
      ['H', 'I', '#', 'a', '#', '%'].takeWhile (fun c => !(c == '#')) :=
  ⟨by decide, ((c9_makeAOPacket ['H', 'I', '#', 'a', '#', '%']).2 (by decide)).1⟩

/-- C10.  `UIDHeap.Free` pushes unconditionally — the contents
always gain the freed id, with no membership or range check — so
double-freeing a taken UID leaves a duplicate in the heap and two
consecutive `Take` calls return the same UID, and freeing an id outside
`[1, MaxPlayers]` stores it all the same.  (Concrete runs with
`MaxPlayers = 2`.) -/
theorem c10_free_unchecked :
    (∀ (l : List Int) (id : Int), contents (uidFree l id) = id ::ₘ contents l) ∧
    uidTake (createHeap 2) = some (1, [2]) ∧
    uidFree (uidFree [2] 1) 1 = [1, 2, 1] ∧
    uidTake [1, 2, 1] = some (1, [1, 2]) ∧
    uidTake [1, 2] = some (1, [2]) ∧
    uidFree (createHeap 2) 7 = [1, 2, 7] := by
  refine ⟨fun l id => contents_heapPush l id, ?_, ?_, ?_, ?_, ?_⟩ <;> decide

/-- C6.  The UID allocator: it starts as the heap of `{1, ..., N}`;
`Take` fails (the underlying `Swap(0, -1)` panics) exactly on the empty
heap and otherwise returns the smallest element currently stored,
removing one occurrence of it; `Free(id)` pushes `id` back; and in any
reachable state — any sequence of `Take`s and `Free`s of currently
taken UIDs — the heap contents are exactly `{1, ..., N}` minus the
currently taken ids. -/
theorem c6_uid_allocator (N : Nat) (s : AllocState) (h : AllocReachable N s) :
    contents (allocInit N).heap = initContents N ∧
    (uidTake s.heap = none ↔ contents s.heap = 0) ∧
    (∀ v h', uidTake s.heap = some (v, h') →
      v ∈ contents s.heap ∧ (∀ x ∈ contents s.heap, v ≤ x) ∧
      v ::ₘ contents h' = contents s.heap) ∧
    (∀ id, contents (uidFree s.heap id) = id ::ₘ contents s.heap) ∧
    contents s.heap = initContents N - s.taken := by
  obtain ⟨hheap, hsum⟩ := alloc_inv h
  refine ⟨contents_createHeap N, ?_, ?_, ?_, ?_⟩
  · constructor
    · intro hnone
      cases hl : s.heap with
      | nil => rfl
      | cons a l' =>
        rw [hl, uidTake] at hnone
        simp [heapPop] at hnone
    · intro hzero
      cases hl : s.heap with
      | nil => rfl
      | cons a l' =>
        rw [hl] at hzero
        simp [contents] at hzero
  · intro v h' hpop
    have hne : s.heap ≠ [] := by
      intro hnil
      rw [uidTake, hnil] at hpop
      simp [heapPop] at hpop
    obtain ⟨rest, hpe, hrh, hcons, hmin⟩ := heapPop_spec hne hheap
    rw [uidTake, hpe] at hpop
    have hvr : nth s.heap 0 = v ∧ rest = h' := by simpa [Prod.ext_iff] using hpop
    obtain ⟨hv, hr⟩ := hvr
    subst hv
    subst hr
    refine ⟨?_, hmin, hcons⟩
    rw [← hcons]
    simp
  · intro id
    exact contents_heapPush s.heap id
  · rw [← hsum]
    rw [add_tsub_cancel_right]

/-- C6, witness (one `Take` from a 3-UID allocator). -/
theorem c6_uid_allocator_witness :
    AllocReachable 3 ⟨[2, 3], (1 : Int) ::ₘ 0⟩ ∧
    contents [2, 3] = initContents 3 - ((1 : Int) ::ₘ 0) := by
  have hstep : AllocStep (allocInit 3) ⟨[2, 3], (1 : Int) ::ₘ (allocInit 3).taken⟩ :=
    AllocStep.take (allocInit 3) 1 [2, 3] (by decide)
  have hreach : AllocReachable 3 ⟨[2, 3], (1 : Int) ::ₘ 0⟩ :=
    Relation.ReflTransGen.tail Relation.ReflTransGen.refl hstep
  exact ⟨hreach, (c6_uid_allocator 3 ⟨[2, 3], (1 : Int) ::ₘ 0⟩ hreach).2.2.2.2⟩

/-- C8, counterexample.  As stated, the claim fails for a client
already inside the locked room: `moveClient` then answers "You are
already in this room!" instead of the invite rejection. -/
theorem c8_move_locked_counterexample :
    ¬ (∀ (st : ServerState) (dstIdx : Nat) (dstRoom : RoomState)
         (st' : ServerState) (msgs : List String),
        st.rooms[dstIdx]? = some dstRoom → dstRoom.lock = lockLocked →
        isInvited dstRoom st.client.uid = false →
        moveClient st (some dstIdx) = some (st', msgs) →
        msgs = ["You are not invited to this room!"]) := by
  intro hclaim
  have h := hclaim
    ⟨[⟨"B", "", lockLocked, [], [], [], []⟩], ⟨5, -1, some 0, false⟩⟩ 0
    ⟨"B", "", lockLocked, [], [], [], []⟩
    ⟨[⟨"B", "", lockLocked, [], [], [], []⟩], ⟨5, -1, some 0, false⟩⟩
    ["You are already in this room!"] (by decide) rfl (by decide) (by decide)
  exact absurd h (by decide)

/-- C8, amended.  For every client in a valid current room who is
*not already in* the destination room and whose UID is not in its
invite set, `moveClient` to a LOCKED destination rejects the move: the
client is sent exactly "You are not invited to this room!", no
character slot is taken or released in any room (no user list changes
either), and the client's room and CID are unchanged.  (If the client
managed its current room, only that manager status is stripped, as the
code does before the invite check.) -/
theorem c8_move_locked_uninvited (st : ServerState) (dstIdx currIdx : Nat)
    (curr dstRoom : RoomState)
    (hcr : st.client.room = some currIdx)
    (hcurr : st.rooms[currIdx]? = some curr)
    (hdst : st.rooms[dstIdx]? = some dstRoom)
    (hne : currIdx ≠ dstIdx)
    (hlock : dstRoom.lock = lockLocked)
    (hinv : isInvited dstRoom st.client.uid = false) :
    ∃ st' : ServerState, moveClient st (some dstIdx) =
        some (st', ["You are not invited to this room!"]) ∧
      (∀ k : Nat, (st'.rooms[k]?).map RoomState.chars = (st.rooms[k]?).map RoomState.chars) ∧
      (∀ k : Nat, (st'.rooms[k]?).map RoomState.users = (st.rooms[k]?).map RoomState.users) ∧
      st'.client.room = st.client.room ∧ st'.client.cid = st.client.cid := by
  have hne2 : ¬ (st.client.room = some dstIdx) := by
    rw [hcr]
    intro hq
    exact hne (Option.some.inj hq)
  have hcond : dstRoom.lock &&& lockLocked ≠ 0 ∧ isInvited dstRoom st.client.uid = false :=
    ⟨by rw [hlock]; decide, hinv⟩
  have hlt : currIdx < st.rooms.length := by
    by_contra hge
    rw [List.getElem?_eq_none (by omega)] at hcurr
    exact Option.noConfusion hcurr
  have hne3 : ¬ (some currIdx = some dstIdx) := fun hq => hne (Option.some.inj hq)
  cases hm : isManager curr st.client.uid with
  | true =>
    refine ⟨⟨st.rooms.set currIdx (removeManager curr st.client.uid),
        { st.client with hasMgrRole := false }⟩, ?_, ?_, ?_, rfl, rfl⟩
    · simp only [moveClient, hcr, hcurr, hm, if_true, if_neg hne3,
        List.getElem?_set_ne hne, hdst, if_pos hcond]
    · intro k
      rcases eq_or_ne currIdx k with rfl | hk
      · simp [List.getElem?_set_self hlt, hcurr, removeManager]
      · simp [List.getElem?_set_ne hk]
    · intro k
      rcases eq_or_ne currIdx k with rfl | hk
      · simp [List.getElem?_set_self hlt, hcurr, removeManager]
      · simp [List.getElem?_set_ne hk]
  | false =>
    refine ⟨⟨st.rooms, st.client⟩, ?_, fun k => rfl, fun k => rfl, rfl, rfl⟩
    simp only [moveClient, hcr, hcurr, hm, Bool.false_eq_true, if_false,
      if_neg hne3, hdst, if_pos hcond]

/-- C8, witness. -/
theorem c8_move_locked_uninvited_witness :
    ∃ st' : ServerState, moveClient
        ⟨[⟨"A", "", lockFree, [], [⟨"Phoenix", true⟩], [⟨0, 5⟩], []⟩,
          ⟨"B", "d", lockLocked, [], [⟨"Phoenix", false⟩], [], []⟩],
         ⟨5, 0, some 0, false⟩⟩ (some 1) =
      some (st', ["You are not invited to this room!"]) := by
  obtain ⟨st', hmove, _⟩ := c8_move_locked_uninvited
    ⟨[⟨"A", "", lockFree, [], [⟨"Phoenix", true⟩], [⟨0, 5⟩], []⟩,
      ⟨"B", "d", lockLocked, [], [⟨"Phoenix", false⟩], [], []⟩],
     ⟨5, 0, some 0, false⟩⟩ 1 0
    ⟨"A", "", lockFree, [], [⟨"Phoenix", true⟩], [⟨0, 5⟩], []⟩
    ⟨"B", "d", lockLocked, [], [⟨"Phoenix", false⟩], [], []⟩
    rfl rfl rfl (by decide) rfl (by decide)
  exact ⟨st', hmove⟩

end Scs
